import Mathlib

/-!
Verification of the core solver components of the raphael-rs crafting macro
solver: the score ordering and its radix-heap similarity, the backtracking
arena, the macro-solver search queue, and the quality-upper-bound solver.

Rust machine integers are modelled as `Nat` or `Int`; where the source uses
saturating `u16` arithmetic the saturation bound `65535` is made explicit.
-/

namespace Raphael

/-- Modelled from the spec: the closed enumeration of crafting actions lives in
the simulator crate, which is not part of the solver sources; this type lists
the actions named in the spec (section 3 and the scenario tables). -/
inductive Action where
  | basicSynthesis
  | basicTouch
  | masterMend
  | observe
  | wasteNot
  | veneration
  | standardTouch
  | comboStandardTouch
  | greatStrides
  | innovation
  | wasteNot2
  | byregotsBlessing
  | muscleMemory
  | carefulSynthesis
  | manipulation
  | prudentTouch
  | reflect
  | preparatoryTouch
  | groundwork
  | delicateSynthesis
  | trainedEye
  | prudentSynthesis
  | trainedFinesse
  | immaculateMend
  | trainedPerfection
  | heartAndSoul
  | quickInnovation
  deriving DecidableEq, Repr

/-- Settings as described in section 3 of the spec: immutable per-run
parameters. The action mask is modelled as a Boolean predicate. -/
structure Settings where
  max_cp : Int
  max_durability : Int
  max_progress : Nat
  max_quality : Nat
  base_progress : Nat
  base_quality : Nat
  job_level : Nat
  allowed_actions : Action → Bool
  adversarial : Bool

/-- Saturation bound of the Rust `u16` type. -/
def u16Max : Nat := 65535

/-- Saturating `u16` addition (`u16::saturating_add`). -/
def satAdd16 (a b : Nat) : Nat := min u16Max (a + b)

/-- Saturating `u16` multiplication by a constant (`u16::saturating_mul`). -/
def satMul16 (a b : Nat) : Nat := min u16Max (a * b)

/-- The `Score` struct from `solvers/src/utils/mod.rs`: the best-first search
key (quality, duration, steps, quality_overflow). -/
structure Score where
  quality : Nat
  duration : Nat
  steps : Nat
  quality_overflow : Nat
  deriving DecidableEq, Repr

/-- Source embedding of `Score::new` from `solvers/src/utils/mod.rs`:
quality is clamped to `settings.max_quality` and the overflow keeps the
excess (`saturating_sub`, which on `Nat` is truncated subtraction). -/
def Score.new (quality duration steps : Nat) (settings : Settings) : Score :=
  { quality := min settings.max_quality quality
    duration := duration
    steps := steps
    quality_overflow := quality - settings.max_quality }

/-- Source embedding of `Ord for Score` from `solvers/src/utils/mod.rs`:
quality ascending, then duration descending, then steps descending, then
quality_overflow ascending. -/
def Score.cmp (a b : Score) : Ordering :=
  (compare a.quality b.quality).then
    ((compare b.duration a.duration).then
      ((compare b.steps a.steps).then
        (compare a.quality_overflow b.quality_overflow)))

/-- The strict order described by the spec's words (section 3): compare
quality ascending, then duration descending, then steps descending, then
quality_overflow ascending. -/
def Score.SpecLt (a b : Score) : Prop :=
  a.quality < b.quality ∨
    (a.quality = b.quality ∧
      (b.duration < a.duration ∨
        (a.duration = b.duration ∧
          (b.steps < a.steps ∨
            (a.steps = b.steps ∧ a.quality_overflow < b.quality_overflow)))))

theorem score_cmp_eq_lt (a b : Score) : Score.cmp a b = .lt ↔ Score.SpecLt a b := by
  simp only [Score.cmp, Score.SpecLt, Ordering.then_eq_lt, Ordering.then_eq_eq,
    Nat.compare_eq_lt, Nat.compare_eq_eq]
  constructor
  · rintro (h | ⟨he, (h | ⟨he2, (h | ⟨he3, h⟩)⟩)⟩)
    · exact Or.inl h
    · exact Or.inr ⟨he, Or.inl h⟩
    · exact Or.inr ⟨he, Or.inr ⟨he2.symm, Or.inl h⟩⟩
    · exact Or.inr ⟨he, Or.inr ⟨he2.symm, Or.inr ⟨he3.symm, h⟩⟩⟩
  · rintro (h | ⟨he, (h | ⟨he2, (h | ⟨he3, h⟩)⟩)⟩)
    · exact Or.inl h
    · exact Or.inr ⟨he, Or.inl h⟩
    · exact Or.inr ⟨he, Or.inr ⟨he2.symm, Or.inl h⟩⟩
    · exact Or.inr ⟨he, Or.inr ⟨he2.symm, Or.inr ⟨he3.symm, h⟩⟩⟩

theorem score_cmp_eq_eq (a b : Score) : Score.cmp a b = .eq ↔ a = b := by
  simp only [Score.cmp, Ordering.then_eq_eq, Nat.compare_eq_eq]
  constructor
  · rintro ⟨h1, h2, h3, h4⟩
    cases a; cases b
    simp_all
  · rintro rfl
    simp

theorem score_cmp_swap (a b : Score) : (Score.cmp a b).swap = Score.cmp b a := by
  simp only [Score.cmp]
  rcases Nat.lt_trichotomy a.quality b.quality with h | h | h <;>
    rcases Nat.lt_trichotomy a.duration b.duration with h2 | h2 | h2 <;>
      rcases Nat.lt_trichotomy a.steps b.steps with h3 | h3 | h3 <;>
        rcases Nat.lt_trichotomy a.quality_overflow b.quality_overflow with h4 | h4 | h4 <;>
          simp_all [Nat.compare_eq_lt.mpr, Nat.compare_eq_eq.mpr, Nat.compare_eq_gt.mpr,
            Nat.lt_irrefl, Ordering.then, Ordering.swap, Nat.compare_eq_eq.mpr rfl]

theorem score_specLt_trans (a b c : Score) (hab : Score.SpecLt a b) (hbc : Score.SpecLt b c) :
    Score.SpecLt a c := by
  rcases hab with h | ⟨e1, h | ⟨e2, h | ⟨e3, h⟩⟩⟩ <;>
    rcases hbc with g | ⟨f1, g | ⟨f2, g | ⟨f3, g⟩⟩⟩ <;>
      simp only [Score.SpecLt] <;> omega

/-- Claim C6: `Score::new(q, dur, steps, settings)` produces
`quality = min(q, max_quality)`, `duration = dur`, `steps = steps`,
`quality_overflow = max(0, q - max_quality)`, and the ordering on `Score`
is the total order comparing quality ascending, then duration descending,
then steps descending, then quality_overflow ascending (strict comparison
agrees with the spec order, equality holds exactly between identical scores,
the order is antisymmetric via `swap`, and the strict order is transitive). -/
theorem claim_C6 :
    (∀ (q d st : Nat) (settings : Settings),
      (Score.new q d st settings).quality = min q settings.max_quality ∧
      (Score.new q d st settings).duration = d ∧
      (Score.new q d st settings).steps = st ∧
      ((Score.new q d st settings).quality_overflow : Int) =
        max 0 ((q : Int) - settings.max_quality)) ∧
    (∀ a b : Score, Score.cmp a b = .lt ↔ Score.SpecLt a b) ∧
    (∀ a b : Score, Score.cmp a b = .eq ↔ a = b) ∧
    (∀ a b : Score, (Score.cmp a b).swap = Score.cmp b a) ∧
    (∀ a b c : Score, Score.SpecLt a b → Score.SpecLt b c → Score.SpecLt a c) := by
  refine ⟨?_, score_cmp_eq_lt, score_cmp_eq_eq, score_cmp_swap, score_specLt_trans⟩
  intro q d st settings
  refine ⟨Nat.min_comm _ _, rfl, rfl, ?_⟩
  simp only [Score.new]
  omega

theorem claim_C6_witness :
    Score.SpecLt ⟨1, 0, 0, 0⟩ ⟨3, 0, 0, 0⟩ :=
  claim_C6.2.2.2.2 ⟨1, 0, 0, 0⟩ ⟨2, 0, 0, 0⟩ ⟨3, 0, 0, 0⟩
    (Or.inl (by decide)) (Or.inl (by decide))

/-! ### Radix similarity (claim C7)

The `radix_heap::Radix` implementation for `Score` in `solvers/src/utils/mod.rs`
computes a 48-bit similarity field by field; the claim states that it equals
the number of identical leading bits of the two 48-bit packed keys. -/

/-- Number of leading zero bits of `n` in a `w`-bit representation
(meaningful when `n < 2 ^ w`); this is `leading_zeros` in Rust. -/
def leadingZeros (w n : Nat) : Nat := w - Nat.size n

/-- The radix_heap crate's similarity for primitive 16-bit integers:
`(a ^ b).leading_zeros()`. -/
def radixSimilarity16 (a b : Nat) : Nat := leadingZeros 16 (a ^^^ b)

/-- The radix_heap crate's similarity for primitive 8-bit integers. -/
def radixSimilarity8 (a b : Nat) : Nat := leadingZeros 8 (a ^^^ b)

/-- Source embedding of `radix_heap::Radix for Score` from
`solvers/src/utils/mod.rs`: field-wise similarity with offsets 0, 16, 24, 32. -/
def Score.radixSimilarity (a b : Score) : Nat :=
  if a.quality ≠ b.quality then radixSimilarity16 a.quality b.quality
  else if a.duration ≠ b.duration then radixSimilarity8 a.duration b.duration + 16
  else if a.steps ≠ b.steps then radixSimilarity8 a.steps b.steps + 24
  else radixSimilarity16 a.quality_overflow b.quality_overflow + 32

/-- The 48-bit packed key `[quality:16 | duration:8 | steps:8 | overflow:16]`,
high bits first, described by the spec (section 4.5). -/
def Score.packedKey (s : Score) : Nat :=
  2 ^ 16 * (2 ^ 8 * (2 ^ 8 * s.quality + s.duration) + s.steps) + s.quality_overflow

/-- Xor acts independently on the two halves of a base-`2 ^ k` digit split. -/
theorem xor_mul_pow_two_add {k x y r1 r2 : Nat} (h1 : r1 < 2 ^ k) (h2 : r2 < 2 ^ k) :
    (2 ^ k * x + r1) ^^^ (2 ^ k * y + r2) = 2 ^ k * (x ^^^ y) + (r1 ^^^ r2) := by
  apply Nat.eq_of_testBit_eq
  intro j
  rw [Nat.testBit_xor, Nat.testBit_mul_pow_two_add x h1 j, Nat.testBit_mul_pow_two_add y h2 j,
    Nat.testBit_mul_pow_two_add (x ^^^ y) (Nat.xor_lt_two_pow h1 h2) j]
  by_cases hj : j < k
  · simp [hj, Nat.testBit_xor]
  · simp [hj, Nat.testBit_xor]

/-- Binary length of a digit-split number: the high digits shift the size. -/
theorem size_mul_pow_two_add {k a r : Nat} (ha : a ≠ 0) (hr : r < 2 ^ k) :
    Nat.size (2 ^ k * a + r) = Nat.size a + k := by
  apply Nat.le_antisymm
  · rw [Nat.size_le]
    calc 2 ^ k * a + r < 2 ^ k * a + 2 ^ k := by omega
    _ = 2 ^ k * (a + 1) := by ring
    _ ≤ 2 ^ k * 2 ^ (Nat.size a) := by
        have := Nat.lt_size_self a
        exact Nat.mul_le_mul_left _ (by omega)
    _ = 2 ^ (Nat.size a + k) := by rw [← Nat.pow_add]; ring_nf
  · have hsz : 1 ≤ Nat.size a := by
      rcases Nat.eq_zero_or_pos (Nat.size a) with h | h
      · exact absurd (Nat.size_eq_zero.mp h) ha
      · exact h
    have h2 : 2 ^ (Nat.size a - 1) ≤ a := Nat.lt_size.mp (by omega)
    have : 2 ^ (Nat.size a - 1 + k) ≤ 2 ^ k * a + r := by
      calc 2 ^ (Nat.size a - 1 + k) = 2 ^ k * 2 ^ (Nat.size a - 1) := by
            rw [← Nat.pow_add]; ring_nf
      _ ≤ 2 ^ k * a := Nat.mul_le_mul_left _ h2
      _ ≤ 2 ^ k * a + r := Nat.le_add_right _ _
    have := Nat.lt_size.mpr this
    omega

theorem size_le_of_lt_two_pow {w n : Nat} (h : n < 2 ^ w) : Nat.size n ≤ w :=
  Nat.size_le.mpr h

/-- Claim C7: for all Score values with fields in their machine-integer
ranges, the field-wise 48-bit radix similarity (offsets 0, 16, 24, 32)
equals the number of identical leading bits of the packed 48-bit keys
`[quality:16 | duration:8 | steps:8 | overflow:16]`. -/
theorem claim_C7 (a b : Score)
    (haq : a.quality < 2 ^ 16) (hbq : b.quality < 2 ^ 16)
    (had : a.duration < 2 ^ 8) (hbd : b.duration < 2 ^ 8)
    (has : a.steps < 2 ^ 8) (hbs : b.steps < 2 ^ 8)
    (hao : a.quality_overflow < 2 ^ 16) (hbo : b.quality_overflow < 2 ^ 16) :
    Score.radixSimilarity a b = leadingZeros 48 (a.packedKey ^^^ b.packedKey) := by
  have hsplit : a.packedKey ^^^ b.packedKey =
      2 ^ 16 * (2 ^ 8 * (2 ^ 8 * (a.quality ^^^ b.quality) + (a.duration ^^^ b.duration))
        + (a.steps ^^^ b.steps)) + (a.quality_overflow ^^^ b.quality_overflow) := by
    unfold Score.packedKey
    rw [xor_mul_pow_two_add hao hbo, xor_mul_pow_two_add has hbs, xor_mul_pow_two_add had hbd]
  rw [hsplit]
  unfold Score.radixSimilarity
  by_cases hq : a.quality = b.quality
  · by_cases hd : a.duration = b.duration
    · by_cases hs : a.steps = b.steps
      · -- only the overflow field can differ
        simp only [hq, hd, hs, Nat.xor_self, ne_eq, not_true_eq_false, if_false,
          Nat.mul_zero, Nat.add_zero, Nat.zero_add, Nat.mul_one]
        have hxo : a.quality_overflow ^^^ b.quality_overflow < 2 ^ 16 :=
          Nat.xor_lt_two_pow hao hbo
        have := size_le_of_lt_two_pow hxo
        unfold radixSimilarity16 leadingZeros
        omega
      · -- steps differ
        have hxs : a.steps ^^^ b.steps ≠ 0 := Nat.xor_ne_zero.mpr hs
        have hxsb : a.steps ^^^ b.steps < 2 ^ 8 := Nat.xor_lt_two_pow has hbs
        have hxob : a.quality_overflow ^^^ b.quality_overflow < 2 ^ 16 :=
          Nat.xor_lt_two_pow hao hbo
        simp only [hq, hd, Nat.xor_self, ne_eq, not_true_eq_false, if_false, hs,
          not_false_eq_true, if_true, Nat.mul_zero, Nat.add_zero, Nat.zero_add]
        unfold radixSimilarity8 leadingZeros
        rw [size_mul_pow_two_add hxs hxob]
        have := size_le_of_lt_two_pow hxsb
        omega
    · -- duration differs
      have hxd : a.duration ^^^ b.duration ≠ 0 := Nat.xor_ne_zero.mpr hd
      have hxdb : a.duration ^^^ b.duration < 2 ^ 8 := Nat.xor_lt_two_pow had hbd
      have hxob : a.quality_overflow ^^^ b.quality_overflow < 2 ^ 16 :=
        Nat.xor_lt_two_pow hao hbo
      have hxsb : a.steps ^^^ b.steps < 2 ^ 8 := Nat.xor_lt_two_pow has hbs
      have hinner : 2 ^ 8 * (a.duration ^^^ b.duration) + (a.steps ^^^ b.steps) ≠ 0 := by
        have : 1 ≤ a.duration ^^^ b.duration := Nat.one_le_iff_ne_zero.mpr hxd
        have : 2 ^ 8 * 1 ≤ 2 ^ 8 * (a.duration ^^^ b.duration) := Nat.mul_le_mul_left _ this
        omega
      simp only [hq, Nat.xor_self, ne_eq, not_true_eq_false, if_false, hd,
        not_false_eq_true, if_true, Nat.mul_zero, Nat.zero_add]
      unfold radixSimilarity8 leadingZeros
      rw [size_mul_pow_two_add hinner hxob, size_mul_pow_two_add hxd hxsb]
      have := size_le_of_lt_two_pow hxdb
      omega
  · -- quality differs
    have hxq : a.quality ^^^ b.quality ≠ 0 := Nat.xor_ne_zero.mpr hq
    have hxqb : a.quality ^^^ b.quality < 2 ^ 16 := Nat.xor_lt_two_pow haq hbq
    have hxdb : a.duration ^^^ b.duration < 2 ^ 8 := Nat.xor_lt_two_pow had hbd
    have hxsb : a.steps ^^^ b.steps < 2 ^ 8 := Nat.xor_lt_two_pow has hbs
    have hxob : a.quality_overflow ^^^ b.quality_overflow < 2 ^ 16 :=
      Nat.xor_lt_two_pow hao hbo
    have hmid : 2 ^ 8 * (a.quality ^^^ b.quality) + (a.duration ^^^ b.duration) ≠ 0 := by
      have : 1 ≤ a.quality ^^^ b.quality := Nat.one_le_iff_ne_zero.mpr hxq
      have : 2 ^ 8 * 1 ≤ 2 ^ 8 * (a.quality ^^^ b.quality) := Nat.mul_le_mul_left _ this
      omega
    have houter :
        2 ^ 8 * (2 ^ 8 * (a.quality ^^^ b.quality) + (a.duration ^^^ b.duration))
          + (a.steps ^^^ b.steps) ≠ 0 := by
      have : 1 ≤ 2 ^ 8 * (a.quality ^^^ b.quality) + (a.duration ^^^ b.duration) :=
        Nat.one_le_iff_ne_zero.mpr hmid
      have h2 : 2 ^ 8 * 1 ≤
          2 ^ 8 * (2 ^ 8 * (a.quality ^^^ b.quality) + (a.duration ^^^ b.duration)) :=
        Nat.mul_le_mul_left _ this
      omega
    simp only [ne_eq, hq, not_false_eq_true, if_true]
    unfold radixSimilarity16 leadingZeros
    rw [size_mul_pow_two_add houter hxob, size_mul_pow_two_add hmid hxsb,
      size_mul_pow_two_add hxq hxdb]
    have := size_le_of_lt_two_pow hxqb
    omega

theorem claim_C7_witness :
    Score.radixSimilarity ⟨3, 7, 1, 0⟩ ⟨2, 9, 4, 5⟩ =
      leadingZeros 48 ((Score.packedKey ⟨3, 7, 1, 0⟩) ^^^ (Score.packedKey ⟨2, 9, 4, 5⟩)) :=
  claim_C7 ⟨3, 7, 1, 0⟩ ⟨2, 9, 4, 5⟩ (by decide) (by decide) (by decide) (by decide)
    (by decide) (by decide) (by decide) (by decide)

/-! ### Backtracking arena (claim C9)

Embedding of `Backtracking<T>` from `solvers/src/utils/mod.rs`: an
append-only vector of `(item, parent_index)` pairs with a sentinel parent. -/

/-- The arena from `solvers/src/utils/mod.rs`. -/
structure Backtracking (T : Type) where
  entries : List (T × Nat)

/-- The sentinel parent index `u32::MAX`. -/
def Backtracking.sentinel : Nat := 4294967295

/-- Source embedding of `Backtracking::push`: append the entry and return its
index (the length before the push). -/
def Backtracking.push {T : Type} (b : Backtracking T) (item : T) (parent : Nat) :
    Backtracking T × Nat :=
  ({ entries := b.entries ++ [(item, parent)] }, b.entries.length)

/-- Loop body of `Backtracking::get`: follow parent links collecting items in
reverse order. The Rust loop runs while the index is not the sentinel; the
fuel bounds the number of iterations (sufficient fuel exists for every arena
whose parent links strictly decrease). -/
def Backtracking.getRevAux {T : Type} : Nat → List (T × Nat) → Nat → List T
  | 0, _, _ => []
  | fuel + 1, entries, index =>
    if index = Backtracking.sentinel then []
    else
      match entries.get? index with
      | some (item, parent) => item :: Backtracking.getRevAux fuel entries parent
      | none => []

/-- Source embedding of `Backtracking::get`: collect items along the parent
chain, then reverse so the root comes first. -/
def Backtracking.get {T : Type} (b : Backtracking T) (index : Nat) : List T :=
  (Backtracking.getRevAux (b.entries.length + 1) b.entries index).reverse

/-- The items on the parent chain of `index`, ordered from the root entry to
the entry at `index`: the chain of an entry whose parent is an earlier index
is that parent's chain followed by the entry's own item. -/
def Backtracking.parentChainItems {T : Type} (entries : List (T × Nat)) (index : Nat) :
    List T :=
  match h : entries.get? index with
  | none => []
  | some (item, parent) =>
    if hp : parent < index then Backtracking.parentChainItems entries parent ++ [item]
    else [item]
termination_by index
decreasing_by exact hp

/-- An arena is well formed when every recorded parent link is either the
sentinel or a strictly earlier index, and indices fit in `u32`; this is
exactly what a sequence of `push` calls whose parent arguments are the
sentinel or previously returned indices produces. -/
def Backtracking.WellFormed {T : Type} (b : Backtracking T) : Prop :=
  b.entries.length ≤ Backtracking.sentinel ∧
    ∀ i e, b.entries.get? i = some e → e.2 = Backtracking.sentinel ∨ e.2 < i

theorem backtracking_push_wf {T : Type} (b : Backtracking T) (item : T) (parent : Nat)
    (hwf : b.WellFormed) (hlen : b.entries.length < Backtracking.sentinel)
    (hparent : parent = Backtracking.sentinel ∨ parent < b.entries.length) :
    (b.push item parent).1.WellFormed := by
  obtain ⟨hl, hp⟩ := hwf
  constructor
  · simp [Backtracking.push]
    omega
  · intro i e he
    simp only [Backtracking.push] at he
    rcases Nat.lt_trichotomy i b.entries.length with h | h | h
    · rw [List.get?_append (by simpa using h)] at he
      exact hp i e he
    · subst h
      rw [List.get?_append_right (Nat.le_refl _)] at he
      simp at he
      subst he
      rcases hparent with h | h
      · exact Or.inl h
      · exact Or.inr h
    · rw [List.get?_eq_none.mpr (by simp; omega)] at he
      exact absurd he (by simp)

theorem backtracking_getRevAux_succ {T : Type} {entries : List (T × Nat)} {index : Nat}
    {item : T} {parent : Nat} (fuel : Nat) (hns : index ≠ Backtracking.sentinel)
    (hget : entries.get? index = some (item, parent)) :
    Backtracking.getRevAux (fuel + 1) entries index =
      item :: Backtracking.getRevAux fuel entries parent := by
  rw [Backtracking.getRevAux, if_neg hns, hget]

theorem backtracking_chain_some {T : Type} {entries : List (T × Nat)} {index : Nat}
    {item : T} {parent : Nat} (hget : entries.get? index = some (item, parent)) :
    Backtracking.parentChainItems entries index =
      if parent < index then Backtracking.parentChainItems entries parent ++ [item]
      else [item] := by
  conv_lhs => unfold Backtracking.parentChainItems
  split
  · next h =>
    rw [hget] at h
    exact absurd h (by simp)
  · next item2 parent2 h =>
    rw [hget] at h
    injection h with h
    injection h with h1 h2
    subst h1
    subst h2
    by_cases hp : parent < index
    · rw [dif_pos hp, if_pos hp]
    · rw [dif_neg hp, if_neg hp]

theorem backtracking_getRevAux_eq {T : Type} (entries : List (T × Nat))
    (hlen : entries.length ≤ Backtracking.sentinel)
    (hwf : ∀ i e, entries.get? i = some e → e.2 = Backtracking.sentinel ∨ e.2 < i) :
    ∀ index fuel, index < entries.length → index < fuel →
      Backtracking.getRevAux fuel entries index =
        (Backtracking.parentChainItems entries index).reverse := by
  intro index
  induction index using Nat.strong_induction_on with
  | _ index ih =>
    intro fuel hidx hfuel
    match fuel with
    | 0 => omega
    | fuel + 1 =>
      have hns : index ≠ Backtracking.sentinel := by omega
      obtain ⟨⟨item, parent⟩, hget⟩ : ∃ e, entries.get? index = some e := by
        rw [List.get?_eq_get hidx]
        exact ⟨_, rfl⟩
      rw [backtracking_getRevAux_succ fuel hns hget, backtracking_chain_some hget]
      rcases hwf index _ hget with hs | hlt
      · -- parent is the sentinel: the entry is a root
        have hs2 : parent = Backtracking.sentinel := hs
        subst hs2
        rw [if_neg (by omega)]
        have hstop : Backtracking.getRevAux fuel entries Backtracking.sentinel = [] := by
          cases fuel with
          | zero => rfl
          | succ f => rw [Backtracking.getRevAux, if_pos rfl]
        rw [hstop]
        simp
      · -- parent is an earlier index
        have hlt2 : parent < index := hlt
        rw [if_pos hlt2, ih parent hlt2 fuel (by omega) (by omega)]
        simp

/-- Claim C9: for every well-formed arena (one built by `push` calls whose
parent arguments are the sentinel or previously returned indices) and every
index of an entry, `get` yields exactly the items on the parent chain of that
index, ordered from the root entry to the entry at the index; moreover `push`
preserves well-formedness and returns the new entry's index. -/
theorem claim_C9 {T : Type} (b : Backtracking T) (index : Nat)
    (hwf : b.WellFormed) (hidx : index < b.entries.length) :
    b.get index = Backtracking.parentChainItems b.entries index ∧
    (∀ (item : T) (parent : Nat), b.entries.length < Backtracking.sentinel →
      (parent = Backtracking.sentinel ∨ parent < b.entries.length) →
      (b.push item parent).1.WellFormed ∧ (b.push item parent).2 = b.entries.length) := by
  constructor
  · unfold Backtracking.get
    rw [backtracking_getRevAux_eq b.entries hwf.1 hwf.2 index (b.entries.length + 1) hidx
      (by omega)]
    simp
  · intro item parent hlen hparent
    exact ⟨backtracking_push_wf b item parent hwf hlen hparent, rfl⟩

theorem claim_C9_witness :
    (Backtracking.get ⟨[(10, Backtracking.sentinel), (20, 0), (30, 1)]⟩ 2 =
      Backtracking.parentChainItems
        (T := Nat) [(10, Backtracking.sentinel), (20, 0), (30, 1)] 2) ∧
    Backtracking.get ⟨[(10, Backtracking.sentinel), (20, 0), (30, 1)]⟩ 2 = [10, 20, 30] := by
  refine ⟨(claim_C9 ⟨[(10, Backtracking.sentinel), (20, 0), (30, 1)]⟩ 2 ⟨?_, ?_⟩ ?_).1, ?_⟩
  · decide
  · intro i e he
    have hi : i < 3 := by
      by_contra h
      rw [List.get?_eq_none.mpr (by simp; omega)] at he
      cases he
    interval_cases i <;> (simp at he; subst he; simp)
  · decide
  · decide

/-! ### Macro-solver search queue (claims C8 and C10)

Embedding of `src/solvers/macro_solver/search_queue.rs`. The game state type
`InProgress` and `Effects` of that module live in the simulator crate, which
is not part of these sources; they are modelled from the spec. The external
pareto_front crate's `ParetoFront::push` (insert unless dominated, drop newly
dominated members, return whether the element was inserted) is modelled by
`frontPush`. Rust's `HashMap` is modelled as an association list. -/

namespace MacroSolver

/-- Modelled from the spec: the per-buff counters of the macro solver's game
state (section 3); only decidable equality of this record matters for the
search queue. -/
structure Effects where
  inner_quiet : Nat
  waste_not : Nat
  innovation : Nat
  veneration : Nat
  great_strides : Nat
  muscle_memory : Nat
  manipulation : Nat
  deriving DecidableEq, Repr

/-- Modelled from the spec: the combo tag values (section 3 lists the combo
states None, BasicTouch, StandardTouch, Reflect; the state stores an
`Option<ComboAction>`). -/
inductive ComboAction where
  | basicTouch
  | standardTouch
  | synthesisBegin
  deriving DecidableEq, Repr

/-- Modelled from the spec: the in-progress game state carried by a search
node (section 3). -/
structure InProgress where
  cp : Int
  durability : Int
  progress : Nat
  quality : Nat
  effects : Effects
  combo : Option ComboAction
  deriving DecidableEq, Repr

/-- A node of the search queue (`SearchNode` in search_queue.rs); the parent
trace is a borrowed reference in the source and is inert for the queue logic,
modelled as an optional handle. -/
structure SearchNode where
  state : InProgress
  trace : Option Nat
  deriving DecidableEq, Repr

/-- The hash key for Pareto-front admission (`ParetoKey` in search_queue.rs):
combo, durability and effects. -/
structure ParetoKey where
  combo : Option ComboAction
  durability : Int
  effects : Effects
  deriving DecidableEq, Repr

/-- Source embedding of `From<&SearchNode> for ParetoKey`. -/
def ParetoKey.ofNode (n : SearchNode) : ParetoKey :=
  { combo := n.state.combo, durability := n.state.durability, effects := n.state.effects }

/-- The antichain dimensions (`ParetoValue` in search_queue.rs): progress and
quality. -/
structure ParetoValue where
  progress : Nat
  quality : Nat
  deriving DecidableEq, Repr

/-- Source embedding of `From<&SearchNode> for ParetoValue`. -/
def SearchNode.paretoValue (n : SearchNode) : ParetoValue :=
  { progress := n.state.progress, quality := n.state.quality }

/-- Source embedding of `Dominate for ParetoValue`: both coordinates at least
as large. -/
def ParetoValue.dominate (a b : ParetoValue) : Bool :=
  decide (b.progress ≤ a.progress) && decide (b.quality ≤ a.quality)

/-- Association-list lookup with a default, modelling `HashMap` access with
`or_default`. -/
def lookupD {κ ν : Type} [DecidableEq κ] : List (κ × ν) → κ → ν → ν
  | [], _, d => d
  | (k2, v) :: rest, k, d => if k = k2 then v else lookupD rest k d

/-- Association-list update, modelling `HashMap` insertion. -/
def assocSet {κ ν : Type} [DecidableEq κ] : List (κ × ν) → κ → ν → List (κ × ν)
  | [], k, v => [(k, v)]
  | (k2, v2) :: rest, k, v =>
    if k = k2 then (k, v) :: rest else (k2, v2) :: assocSet rest k v

/-- The external pareto_front crate's `ParetoFront::push`: reject the value if
an existing member dominates it, otherwise insert it and drop the members it
dominates; the Boolean reports whether the value was inserted. -/
def frontPush (front : List ParetoValue) (v : ParetoValue) : List ParetoValue × Bool :=
  if front.any (fun w => ParetoValue.dominate w v) then (front, false)
  else (v :: front.filter (fun w => !(ParetoValue.dominate v w)), true)

/-- The search queue from search_queue.rs: the ready list (`current`, head is
the top of the Rust `Vec`), the CP-indexed buckets (the Rust `Vec` pops from
the end, so the last list element is the highest-CP bucket), and the global
per-key Pareto fronts. -/
structure SearchQueue where
  current : List SearchNode
  buckets : List (List (ParetoKey × List SearchNode))
  pareto_front : List (ParetoKey × List ParetoValue)

/-- Source embedding of `SearchQueue::new`: `max_cp + 1` empty buckets. -/
def SearchQueue.new (settings : Settings) : SearchQueue :=
  { current := [], buckets := List.replicate (settings.max_cp + 1).toNat [], pareto_front := [] }

/-- Source embedding of `SearchQueue::push`: index the bucket vector directly
by the node's CP (`as usize`; a negative CP wraps far out of bounds). The
out-of-bounds panic is modelled as `none`. -/
def SearchQueue.push (q : SearchQueue) (node : SearchNode) : Option SearchQueue :=
  if 0 ≤ node.state.cp ∧ node.state.cp < (q.buckets.length : Int) then
    let idx := node.state.cp.toNat
    let bucket := q.buckets.getD idx []
    let key := ParetoKey.ofNode node
    some { q with
      buckets := q.buckets.set idx (assocSet bucket key (lookupD bucket key [] ++ [node])) }
  else none

/-- One admission step of `pop_bucket`'s inner loop: push the node's value
into the given global front; the node becomes ready exactly when the push
accepted the value. -/
def admitNode (front : List ParetoValue) (cur : List SearchNode) (n : SearchNode) :
    List ParetoValue × List SearchNode :=
  let fp := frontPush front n.paretoValue
  (fp.1, if fp.2 then n :: cur else cur)

/-- The inner loop of `pop_bucket` over the members of one local front. -/
def processValues :
    List ParetoValue → List SearchNode → List SearchNode → List ParetoValue × List SearchNode
  | front, cur, [] => (front, cur)
  | front, cur, n :: rest =>
    let fc := admitNode front cur n
    processValues fc.1 fc.2 rest

/-- Processing of one `(key, local front)` entry of a drained bucket. -/
def drainEntry (q : SearchQueue) (entry : ParetoKey × List SearchNode) : SearchQueue :=
  let gf := lookupD q.pareto_front entry.1 []
  let fc := processValues gf q.current entry.2
  { q with pareto_front := assocSet q.pareto_front entry.1 fc.1, current := fc.2 }

/-- Source embedding of `SearchQueue::pop_bucket`: remove the highest-CP
bucket and admit its nodes into the global fronts; `none` models the Rust
`false` return on an empty bucket vector. -/
def SearchQueue.popBucket (q : SearchQueue) : Option SearchQueue :=
  match q.buckets.getLast? with
  | none => none
  | some bucket => some (bucket.foldl drainEntry { q with buckets := q.buckets.dropLast })

theorem drainEntry_buckets (q : SearchQueue) (entry : ParetoKey × List SearchNode) :
    (drainEntry q entry).buckets = q.buckets := rfl

theorem foldl_drainEntry_buckets (entries : List (ParetoKey × List SearchNode)) :
    ∀ q : SearchQueue, (entries.foldl drainEntry q).buckets = q.buckets := by
  induction entries with
  | nil => intro q; rfl
  | cons e rest ih => intro q; rw [List.foldl_cons, ih, drainEntry_buckets]

theorem popBucket_length_lt (q q2 : SearchQueue) (h : q.popBucket = some q2) :
    q2.buckets.length < q.buckets.length := by
  unfold SearchQueue.popBucket at h
  match hb : q.buckets.getLast? with
  | none => rw [hb] at h; cases h
  | some bucket =>
    rw [hb] at h
    injection h with h
    subst h
    rw [foldl_drainEntry_buckets]
    have hne : q.buckets ≠ [] := by
      intro hnil
      rw [hnil] at hb
      cases hb
    simp only [List.length_dropLast]
    have : 0 < q.buckets.length := List.length_pos.mpr hne
    omega

/-- Source embedding of `SearchQueue::pop`: return a ready node if one is
buffered, otherwise drain the next bucket and retry; `none` when the bucket
vector is exhausted. -/
def SearchQueue.pop (q : SearchQueue) : Option (SearchNode × SearchQueue) :=
  match q.current with
  | n :: rest => some (n, { q with current := rest })
  | [] =>
    match h : q.popBucket with
    | some q2 => q2.pop
    | none => none
termination_by q.buckets.length
decreasing_by exact popBucket_length_lt _ _ h

/-- Claim C10: `SearchQueue::push` indexes the bucket vector directly by the
node's CP with no bounds check; it is panic-free exactly when
`0 ≤ cp < number of remaining buckets`; the bucket count starts at
`max_cp + 1` and decreases by one each time `pop_bucket` drains a bucket. -/
theorem claim_C10 :
    (∀ (q : SearchQueue) (n : SearchNode),
      (q.push n).isSome ↔ 0 ≤ n.state.cp ∧ n.state.cp < (q.buckets.length : Int)) ∧
    (∀ settings : Settings, 0 ≤ settings.max_cp →
      ((SearchQueue.new settings).buckets.length : Int) = settings.max_cp + 1) ∧
    (∀ q q2 : SearchQueue, q.popBucket = some q2 →
      q.buckets ≠ [] ∧ q2.buckets.length + 1 = q.buckets.length) := by
  refine ⟨?_, ?_, ?_⟩
  · intro q n
    unfold SearchQueue.push
    by_cases h : 0 ≤ n.state.cp ∧ n.state.cp < (q.buckets.length : Int)
    · rw [if_pos h]
      simpa using h
    · rw [if_neg h]
      simpa using h
  · intro settings h
    unfold SearchQueue.new
    simp only [List.length_replicate]
    omega
  · intro q q2 h
    have hlt := popBucket_length_lt q q2 h
    have hne : q.buckets ≠ [] := by
      intro hnil
      unfold SearchQueue.popBucket at h
      rw [hnil] at h
      cases h
    refine ⟨hne, ?_⟩
    unfold SearchQueue.popBucket at h
    match hb : q.buckets.getLast? with
    | none =>
      rw [hb] at h
      cases h
    | some bucket =>
      rw [hb] at h
      injection h with h
      subst h
      rw [foldl_drainEntry_buckets]
      simp only [List.length_dropLast]
      have : 0 < q.buckets.length := List.length_pos.mpr hne
      omega

/-! Admission invariants for claim C8. -/

theorem dominate_trans {a b c : ParetoValue} (h1 : ParetoValue.dominate a b = true)
    (h2 : ParetoValue.dominate b c = true) : ParetoValue.dominate a c = true := by
  simp only [ParetoValue.dominate, Bool.and_eq_true, decide_eq_true_eq] at *
  omega

/-- The value `v` has a dominator inside the global front stored for key `k`. -/
def FrontDominates (fronts : List (ParetoKey × List ParetoValue)) (k : ParetoKey)
    (v : ParetoValue) : Prop :=
  ∃ e ∈ lookupD fronts k [], ParetoValue.dominate e v = true

/-- A bucket entry maps a key to nodes carrying exactly that key. -/
def EntryKeyed (e : ParetoKey × List SearchNode) : Prop :=
  ∀ n ∈ e.2, ParetoKey.ofNode n = e.1

/-- Every bucket of the queue is keyed correctly; `SearchQueue::push`
establishes this because it files each node under its own key. -/
def BucketsKeyed (q : SearchQueue) : Prop :=
  ∀ b ∈ q.buckets, ∀ e ∈ b, EntryKeyed e

theorem frontPush_preserves {f : List ParetoValue} {v : ParetoValue} (w : ParetoValue)
    (h : ∃ e ∈ f, ParetoValue.dominate e v = true) :
    ∃ e ∈ (frontPush f w).1, ParetoValue.dominate e v = true := by
  unfold frontPush
  by_cases hd : f.any (fun x => ParetoValue.dominate x w) = true
  · rw [if_pos hd]
    exact h
  · rw [if_neg hd]
    obtain ⟨e, he, hdom⟩ := h
    by_cases hw : ParetoValue.dominate w e = true
    · exact ⟨w, List.mem_cons_self _ _, dominate_trans hw hdom⟩
    · refine ⟨e, List.mem_cons_of_mem _ ?_, hdom⟩
      rw [List.mem_filter]
      exact ⟨he, by simp [hw]⟩

theorem frontPush_rejects {f : List ParetoValue} {v : ParetoValue}
    (h : ∃ e ∈ f, ParetoValue.dominate e v = true) : (frontPush f v).2 = false := by
  unfold frontPush
  rw [if_pos (List.any_eq_true.mpr (by simpa using h))]

theorem frontPush_accepts_iff (f : List ParetoValue) (v : ParetoValue) :
    (frontPush f v).2 = true ↔ ¬ ∃ e ∈ f, ParetoValue.dominate e v = true := by
  unfold frontPush
  by_cases hd : f.any (fun x => ParetoValue.dominate x v) = true
  · rw [if_pos hd]
    simp only [Bool.false_eq_true, false_iff, not_not]
    simpa using List.any_eq_true.mp hd
  · rw [if_neg hd]
    simp only [true_iff]
    intro hex
    exact hd (List.any_eq_true.mpr (by simpa using hex))

theorem processValues_mem (nodes : List SearchNode) :
    ∀ (front : List ParetoValue) (cur : List SearchNode) (n : SearchNode),
      n ∈ (processValues front cur nodes).2 → n ∈ cur ∨ n ∈ nodes := by
  induction nodes with
  | nil =>
    intro front cur n h
    exact Or.inl h
  | cons m rest ih =>
    intro front cur n h
    simp only [processValues] at h
    rcases ih _ _ n h with h2 | h2
    · unfold admitNode at h2
      by_cases hacc : (frontPush front m.paretoValue).2 = true
      · simp only [hacc, if_true] at h2
        rcases List.mem_cons.mp h2 with h3 | h3
        · exact Or.inr (h3 ▸ List.mem_cons_self _ _)
        · exact Or.inl h3
      · simp only [Bool.not_eq_true] at hacc
        simp only [hacc, Bool.false_eq_true, if_false] at h2
        exact Or.inl h2
    · exact Or.inr (List.mem_cons_of_mem _ h2)

theorem processValues_invariant {v : ParetoValue} (nodes : List SearchNode) :
    ∀ (front : List ParetoValue) (cur : List SearchNode),
      (∃ e ∈ front, ParetoValue.dominate e v = true) →
      (∃ e ∈ (processValues front cur nodes).1, ParetoValue.dominate e v = true) ∧
      (∀ n ∈ (processValues front cur nodes).2, n.paretoValue = v → n ∈ cur) := by
  induction nodes with
  | nil =>
    intro front cur h
    exact ⟨h, fun n hn _ => hn⟩
  | cons n rest ih =>
    intro front cur h
    simp only [processValues]
    have hpres := frontPush_preserves n.paretoValue h
    have hstep := ih (admitNode front cur n).1 (admitNode front cur n).2 hpres
    refine ⟨hstep.1, ?_⟩
    intro m hm hv
    have hmem := hstep.2 m hm hv
    unfold admitNode at hmem
    by_cases hacc : (frontPush front n.paretoValue).2 = true
    · simp only [hacc, if_true] at hmem
      rcases List.mem_cons.mp hmem with h3 | h3
    -- the admitted head cannot carry the dominated value: the push rejects it
      · subst h3
        rw [hv] at hacc
        rw [frontPush_rejects h] at hacc
        cases hacc
      · exact h3
    · simp only [Bool.not_eq_true] at hacc
      simp only [hacc, Bool.false_eq_true, if_false] at hmem
      exact hmem

theorem lookupD_assocSet_self {κ ν : Type} [DecidableEq κ] (m : List (κ × ν)) (k : κ)
    (v : ν) (d : ν) : lookupD (assocSet m k v) k d = v := by
  induction m with
  | nil => simp [assocSet, lookupD]
  | cons e rest ih =>
    obtain ⟨k2, v2⟩ := e
    by_cases h : k = k2
    · simp [assocSet, h, lookupD]
    · simp [assocSet, h, lookupD, ih]

theorem lookupD_assocSet_ne {κ ν : Type} [DecidableEq κ] (m : List (κ × ν)) {k k2 : κ}
    (v : ν) (d : ν) (h : k ≠ k2) : lookupD (assocSet m k2 v) k d = lookupD m k d := by
  induction m with
  | nil => simp [assocSet, lookupD, h]
  | cons e rest ih =>
    obtain ⟨k3, v3⟩ := e
    by_cases h2 : k2 = k3
    · subst h2
      simp [assocSet, lookupD, h]
    · by_cases h3 : k = k3
      · simp [assocSet, h2, lookupD, h3]
      · simp [assocSet, h2, lookupD, h3, ih]

theorem drainEntry_invariant {k : ParetoKey} {v : ParetoValue} (q : SearchQueue)
    (e : ParetoKey × List SearchNode) (hkeyed : EntryKeyed e)
    (hf : FrontDominates q.pareto_front k v) :
    FrontDominates (drainEntry q e).pareto_front k v ∧
    (∀ n ∈ (drainEntry q e).current,
      ParetoKey.ofNode n = k → n.paretoValue = v → n ∈ q.current) := by
  unfold drainEntry FrontDominates
  by_cases hk : e.1 = k
  · subst hk
    have hinv := processValues_invariant (v := v) e.2 (lookupD q.pareto_front e.1 []) q.current hf
    constructor
    · rw [lookupD_assocSet_self]
      exact hinv.1
    · intro n hn _ hv
      exact hinv.2 n hn hv
  · constructor
    · rw [lookupD_assocSet_ne _ _ _ (fun h => hk h.symm)]
      exact hf
    · intro n hn hkey hv
      rcases processValues_mem e.2 _ _ n hn with h | h
      · exact h
      · exact absurd (hkeyed n h) (by rw [hkey]; exact fun h2 => hk h2.symm)

theorem foldl_drainEntry_invariant {k : ParetoKey} {v : ParetoValue}
    (entries : List (ParetoKey × List SearchNode)) :
    ∀ q : SearchQueue, (∀ e ∈ entries, EntryKeyed e) →
      FrontDominates q.pareto_front k v →
      FrontDominates (entries.foldl drainEntry q).pareto_front k v ∧
      (∀ n ∈ (entries.foldl drainEntry q).current,
        ParetoKey.ofNode n = k → n.paretoValue = v → n ∈ q.current) := by
  induction entries with
  | nil =>
    intro q _ hf
    exact ⟨hf, fun n hn _ _ => hn⟩
  | cons e rest ih =>
    intro q hkeyed hf
    rw [List.foldl_cons]
    have hde := drainEntry_invariant q e (hkeyed e (List.mem_cons_self _ _)) hf
    have hrest := ih (drainEntry q e) (fun e2 he2 => hkeyed e2 (List.mem_cons_of_mem _ he2))
      hde.1
    refine ⟨hrest.1, ?_⟩
    intro n hn hkey hv
    exact hde.2 n (hrest.2 n hn hkey hv) hkey hv

theorem popBucket_invariant {k : ParetoKey} {v : ParetoValue} {q q2 : SearchQueue}
    (h : q.popBucket = some q2) (hkeyed : BucketsKeyed q)
    (hf : FrontDominates q.pareto_front k v) :
    FrontDominates q2.pareto_front k v ∧ BucketsKeyed q2 ∧
    (∀ n ∈ q2.current, ParetoKey.ofNode n = k → n.paretoValue = v → n ∈ q.current) := by
  unfold SearchQueue.popBucket at h
  match hb : q.buckets.getLast? with
  | none =>
    rw [hb] at h
    cases h
  | some bucket =>
    rw [hb] at h
    injection h with h
    subst h
    have hbmem : bucket ∈ q.buckets := by
      rcases List.getLast?_eq_getLast _ ?hne ▸ hb with h2
      · have := List.getLast?_eq_some_iff.mp hb
        obtain ⟨l2, hl2⟩ := this
        rw [hl2]
        simp
    have hbk : ∀ e ∈ bucket, EntryKeyed e := fun e he => hkeyed bucket hbmem e he
    have hfold := foldl_drainEntry_invariant bucket
      { q with buckets := q.buckets.dropLast } hbk hf
    refine ⟨hfold.1, ?_, hfold.2⟩
    intro b hbmem2 e he
    rw [foldl_drainEntry_buckets] at hbmem2
    exact hkeyed b ((List.dropLast_prefix _).subset hbmem2) e he

theorem push_fields {q q2 : SearchQueue} {n : SearchNode} (h : q.push n = some q2) :
    q2.pareto_front = q.pareto_front ∧ q2.current = q.current := by
  unfold SearchQueue.push at h
  by_cases hc : 0 ≤ n.state.cp ∧ n.state.cp < (q.buckets.length : Int)
  · rw [if_pos hc] at h
    injection h with h
    subst h
    exact ⟨rfl, rfl⟩
  · rw [if_neg hc] at h
    cases h

theorem lookupD_keyed {m : List (ParetoKey × List SearchNode)} {k : ParetoKey}
    (hm : ∀ e ∈ m, EntryKeyed e) : ∀ n ∈ lookupD m k [], ParetoKey.ofNode n = k := by
  induction m with
  | nil =>
    intro n hn
    cases hn
  | cons e rest ih =>
    obtain ⟨k2, nodes⟩ := e
    intro n hn
    unfold lookupD at hn
    by_cases hk : k = k2
    · rw [if_pos hk] at hn
      rw [hk]
      exact hm (k2, nodes) (List.mem_cons_self _ _) n hn
    · rw [if_neg hk] at hn
      exact ih (fun e2 he2 => hm e2 (List.mem_cons_of_mem _ he2)) n hn

theorem assocSet_mem {κ ν : Type} [DecidableEq κ] {m : List (κ × ν)} {k : κ} {v : ν}
    {e : κ × ν} (h : e ∈ assocSet m k v) : e = (k, v) ∨ e ∈ m := by
  induction m with
  | nil =>
    unfold assocSet at h
    rcases List.mem_singleton.mp h with h2
    exact Or.inl h2
  | cons e2 rest ih =>
    obtain ⟨k2, v2⟩ := e2
    unfold assocSet at h
    by_cases hk : k = k2
    · rw [if_pos hk] at h
      rcases List.mem_cons.mp h with h2 | h2
      · exact Or.inl h2
      · exact Or.inr (List.mem_cons_of_mem _ h2)
    · rw [if_neg hk] at h
      rcases List.mem_cons.mp h with h2 | h2
      · exact Or.inr (h2 ▸ List.mem_cons_self _ _)
      · rcases ih h2 with h3 | h3
        · exact Or.inl h3
        · exact Or.inr (List.mem_cons_of_mem _ h3)

theorem getD_bucket_keyed {q : SearchQueue} (hkeyed : BucketsKeyed q) (idx : Nat) :
    ∀ e ∈ q.buckets.getD idx [], EntryKeyed e := by
  by_cases hlt : idx < q.buckets.length
  · intro e he
    refine hkeyed _ ?_ e he
    rw [List.getD_eq_getElem _ _ hlt]
    exact List.getElem_mem _
  · intro e he
    rw [List.getD_eq_default _ _ (by omega)] at he
    cases he

theorem push_keyed {q q2 : SearchQueue} {n : SearchNode} (h : q.push n = some q2)
    (hkeyed : BucketsKeyed q) : BucketsKeyed q2 := by
  unfold SearchQueue.push at h
  by_cases hc : 0 ≤ n.state.cp ∧ n.state.cp < (q.buckets.length : Int)
  · rw [if_pos hc] at h
    injection h with h
    subst h
    have hbk := getD_bucket_keyed hkeyed n.state.cp.toNat
    intro b hb e he
    rcases List.mem_or_eq_of_mem_set hb with h2 | h2
    · exact hkeyed b h2 e he
    · subst h2
      rcases assocSet_mem he with h3 | h3
      · subst h3
        intro m hm
        rcases List.mem_append.mp hm with h4 | h4
        · exact lookupD_keyed hbk m h4
        · rw [List.mem_singleton.mp h4]
      · exact hbk e h3
  · rw [if_neg hc] at h
    cases h

theorem pop_eq_cons (q : SearchQueue) (n : SearchNode) (rest : List SearchNode)
    (h : q.current = n :: rest) : q.pop = some (n, { q with current := rest }) := by
  rw [SearchQueue.pop, h]

theorem pop_eq_nil_some (q q3 : SearchQueue) (hc : q.current = [])
    (hpb : q.popBucket = some q3) : q.pop = q3.pop := by
  rw [SearchQueue.pop, hc]
  split
  · simp_all
  · split
    · next q4 heq =>
      rw [hpb] at heq
      injection heq with heq
      rw [heq]
    · next heq =>
      rw [hpb] at heq
      cases heq

theorem pop_eq_nil_none (q : SearchQueue) (hc : q.current = [])
    (hpb : q.popBucket = none) : q.pop = none := by
  rw [SearchQueue.pop, hc]
  split
  · simp_all
  · split
    · next q4 heq =>
      rw [hpb] at heq
      cases heq
    · rfl

/-- A node carries the dominated key-value pair under scrutiny. -/
def IsKV (k : ParetoKey) (v : ParetoValue) (n : SearchNode) : Prop :=
  ParetoKey.ofNode n = k ∧ n.paretoValue = v

theorem pop_invariant {k : ParetoKey} {v : ParetoValue} :
    ∀ (q : SearchQueue), BucketsKeyed q → FrontDominates q.pareto_front k v →
      (∀ m ∈ q.current, ¬ IsKV k v m) →
      ∀ n q2, q.pop = some (n, q2) →
        ¬ IsKV k v n ∧ BucketsKeyed q2 ∧ FrontDominates q2.pareto_front k v ∧
        (∀ m ∈ q2.current, ¬ IsKV k v m) := by
  suffices H : ∀ (L : Nat) (q : SearchQueue), q.buckets.length = L →
      BucketsKeyed q → FrontDominates q.pareto_front k v →
      (∀ m ∈ q.current, ¬ IsKV k v m) →
      ∀ n q2, q.pop = some (n, q2) →
        ¬ IsKV k v n ∧ BucketsKeyed q2 ∧ FrontDominates q2.pareto_front k v ∧
        (∀ m ∈ q2.current, ¬ IsKV k v m) by
    exact fun q => H q.buckets.length q rfl
  intro L
  induction L using Nat.strong_induction_on with
  | _ L ih =>
    intro q hL hkeyed hf hcur n q2 hpop
    match hc : q.current with
    | m :: rest =>
      rw [pop_eq_cons q m rest hc] at hpop
      injection hpop with hpop
      injection hpop with h1 h2
      subst h1
      subst h2
      refine ⟨hcur _ (by rw [hc]; exact List.mem_cons_self _ _), hkeyed, hf, ?_⟩
      intro m2 hm2
      exact hcur m2 (by rw [hc]; exact List.mem_cons_of_mem _ hm2)
    | [] =>
      match hpb : q.popBucket with
      | none =>
        rw [pop_eq_nil_none q hc hpb] at hpop
        cases hpop
      | some q3 =>
        rw [pop_eq_nil_some q q3 hc hpb] at hpop
        have hinv := popBucket_invariant hpb hkeyed hf
        have hcur3 : ∀ m ∈ q3.current, ¬ IsKV k v m := by
          intro m hm hkv
          have := hinv.2.2 m hm hkv.1 hkv.2
          rw [hc] at this
          cases this
        exact ih q3.buckets.length (by rw [← hL]; exact popBucket_length_lt _ _ hpb) q3 rfl
          hinv.2.1 hinv.1 hcur3 n q2 hpop

/-- An operation of the queue's public interface. -/
inductive Op where
  | pushNode (n : SearchNode)
  | popNode

/-- Run a sequence of queue operations and collect the nodes returned by
`pop`; a push whose CP index is out of bounds is skipped (in Rust it would
panic, so a panic-free run performs exactly these transitions). -/
def runOps : SearchQueue → List Op → List SearchNode
  | _, [] => []
  | q, Op.pushNode n :: rest => runOps ((q.push n).getD q) rest
  | q, Op.popNode :: rest =>
    match q.pop with
    | some nq => nq.1 :: runOps nq.2 rest
    | none => runOps q rest

theorem runOps_never_dominated {k : ParetoKey} {v : ParetoValue} (ops : List Op) :
    ∀ q : SearchQueue, BucketsKeyed q → FrontDominates q.pareto_front k v →
      (∀ m ∈ q.current, ¬ IsKV k v m) →
      ∀ n ∈ runOps q ops, ¬ IsKV k v n := by
  induction ops with
  | nil =>
    intro q _ _ _ n hn
    cases hn
  | cons op rest ih =>
    intro q hkeyed hf hcur n hn
    match op with
    | Op.pushNode m =>
      simp only [runOps] at hn
      match hp : q.push m with
      | some q2 =>
        rw [hp] at hn
        have hfields := push_fields hp
        exact ih q2 (push_keyed hp hkeyed) (hfields.1 ▸ hf) (hfields.2 ▸ hcur) n hn
      | none =>
        rw [hp] at hn
        exact ih q hkeyed hf hcur n hn
    | Op.popNode =>
      simp only [runOps] at hn
      match hp : q.pop with
      | some nq =>
        rw [hp] at hn
        have hinv := pop_invariant q hkeyed hf hcur nq.1 nq.2 hp
        rcases List.mem_cons.mp hn with h2 | h2
        · exact h2 ▸ hinv.1
        · exact ih nq.2 hinv.2.1 hinv.2.2.1 hinv.2.2.2 n h2
      | none =>
        rw [hp] at hn
        exact ih q hkeyed hf hcur n hn

/-- Claim C8: `SearchQueue::pop` returns a buffered ready node if one exists;
otherwise it removes the highest-remaining-CP bucket and admits each of its
nodes into the global Pareto front for the node's `(combo, durability,
effects)` key, a node becoming ready exactly when the front accepted its
`(progress, quality)` value (acceptance meaning no existing member dominates
it); and a node whose value is dominated by a previously admitted value with
the same key is never returned by any later sequence of queue operations
(unless it was already buffered as ready). -/
theorem claim_C8 :
    (∀ (q : SearchQueue) (n : SearchNode) (rest : List SearchNode),
      q.current = n :: rest → q.pop = some (n, { q with current := rest })) ∧
    (∀ q q2 : SearchQueue, q.popBucket = some q2 →
      q2.buckets = q.buckets.dropLast ∧ q.buckets ≠ []) ∧
    (∀ (f : List ParetoValue) (v : ParetoValue),
      (frontPush f v).2 = true ↔ ¬ ∃ e ∈ f, ParetoValue.dominate e v = true) ∧
    (∀ (front : List ParetoValue) (cur : List SearchNode) (n : SearchNode),
      (admitNode front cur n).2 =
        if (frontPush front n.paretoValue).2 then n :: cur else cur) ∧
    (∀ (q : SearchQueue) (k : ParetoKey) (v : ParetoValue) (ops : List Op),
      BucketsKeyed q → FrontDominates q.pareto_front k v →
      (∀ m ∈ q.current, ¬ IsKV k v m) →
      ∀ n ∈ runOps q ops, ¬ IsKV k v n) := by
  refine ⟨pop_eq_cons, ?_, frontPush_accepts_iff, fun _ _ _ => rfl, ?_⟩
  · intro q q2 h
    have hne : q.buckets ≠ [] := by
      intro hnil
      unfold SearchQueue.popBucket at h
      rw [hnil] at h
      cases h
    refine ⟨?_, hne⟩
    unfold SearchQueue.popBucket at h
    match hb : q.buckets.getLast? with
    | none =>
      rw [hb] at h
      cases h
    | some bucket =>
      rw [hb] at h
      injection h with h
      subst h
      rw [foldl_drainEntry_buckets]
  · intro q k v ops hkeyed hf hcur
    exact runOps_never_dominated ops q hkeyed hf hcur

theorem claim_C8_witness :
    SearchQueue.pop
        { current := [⟨⟨0, 0, 0, 0, ⟨0, 0, 0, 0, 0, 0, 0⟩, none⟩, none⟩],
          buckets := [], pareto_front := [] } =
      some (⟨⟨0, 0, 0, 0, ⟨0, 0, 0, 0, 0, 0, 0⟩, none⟩, none⟩,
        { current := [], buckets := [], pareto_front := [] }) ∧
    (frontPush [] ⟨1, 1⟩).2 = true :=
  ⟨claim_C8.1
      { current := [⟨⟨0, 0, 0, 0, ⟨0, 0, 0, 0, 0, 0, 0⟩, none⟩, none⟩],
        buckets := [], pareto_front := [] }
      ⟨⟨0, 0, 0, 0, ⟨0, 0, 0, 0, 0, 0, 0⟩, none⟩, none⟩ [] rfl,
    (claim_C8.2.2.1 [] ⟨1, 1⟩).mpr (by simp)⟩

theorem claim_C10_witness :
    ((SearchQueue.new
        { max_cp := 3, max_durability := 40, max_progress := 100, max_quality := 100,
          base_progress := 10, base_quality := 10, job_level := 90,
          allowed_actions := fun _ => true, adversarial := false }).buckets.length : Int) =
      3 + 1 := by
  have h := claim_C10.2.1
    { max_cp := 3, max_durability := 40, max_progress := 100, max_quality := 100,
      base_progress := 10, base_quality := 10, job_level := 90,
      allowed_actions := fun _ => true, adversarial := false } (by norm_num)
  simpa using h

end MacroSolver

/-! ### Quality-upper-bound solver (claims C2, C3, C4)

Embedding of `solvers/src/quality_upper_bound_solver/solver.rs`. The simulator
crate (`SimulationState`, `use_action`, action tables) and `state.rs`
(`ReducedState`) are not part of these sources: the state types follow the
spec's data model (section 3), the one-step simulation under the normal
condition is a parameter of the solver record, and `ReducedState::from_state`
is the projection the spec describes (the cp credits appear explicitly at the
call site in `quality_upper_bound`). The Pareto-front builder is modelled
from spec section 4.3. -/

namespace QubSolver

/-- Modelled from the spec: the three-valued single-use token (section 3). -/
inductive SingleUse where
  | available
  | active
  | unavailable
  deriving DecidableEq, Repr

/-- Modelled from the spec: the bit-packed effects record (section 3),
modelled as a plain record of counters and tokens. -/
structure Effects where
  inner_quiet : Nat
  great_strides : Nat
  innovation : Nat
  veneration : Nat
  muscle_memory : Nat
  waste_not : Nat
  manipulation : Nat
  adversarial_guard : Nat
  trained_perfection : SingleUse
  heart_and_soul : SingleUse
  quick_innovation : SingleUse
  deriving DecidableEq, Repr

/-- Setter of the trained-perfection token (`set_trained_perfection`). -/
def Effects.set_trained_perfection (e : Effects) (s : SingleUse) : Effects :=
  { e with trained_perfection := s }

/-- Modelled from the spec: the combo tag (section 3). -/
inductive Combo where
  | noCombo
  | basicTouch
  | standardTouch
  | reflect
  deriving DecidableEq, Repr

/-- Modelled from the spec: the full simulation state (section 3). -/
structure SimulationState where
  cp : Int
  durability : Int
  progress : Nat
  unreliable_quality : Nat × Nat
  effects : Effects
  combo : Combo
  deriving DecidableEq, Repr

/-- Modelled from the spec: `get_quality` returns the adversary's worst case,
the minimum of the unreliable-quality pair (section 4.2). -/
def SimulationState.get_quality (s : SimulationState) : Nat :=
  min s.unreliable_quality.1 s.unreliable_quality.2

/-- Modelled from the spec: the memoisation key (section 3): cp with the
credits folded in by the caller, the effects and the combo; durability,
progress and realised quality are eliminated. -/
structure ReducedState where
  cp : Int
  effects : Effects
  combo : Combo
  deriving DecidableEq, Repr

/-- Modelled from the spec: `ReducedState::from_state` keeps the remaining
fields verbatim in the key (section 4.4 step 5); the cp credits are applied
explicitly at the call site in `quality_upper_bound`. -/
def ReducedState.from_state (state : SimulationState) : ReducedState :=
  { cp := state.cp, effects := state.effects, combo := state.combo }

/-- The `ParetoValue<u16, u16>` pair of the front builder (first = progress,
second = quality). -/
structure ParetoValue where
  first : Nat
  second : Nat
  deriving DecidableEq, Repr

/-- Domination for the builder's values: both components at least as large. -/
def ParetoValue.dominates (a b : ParetoValue) : Bool :=
  decide (b.first ≤ a.first) && decide (b.second ≤ a.second)

/-- Keep only maximal elements while inserting a value. -/
def insertValue (front : List ParetoValue) (v : ParetoValue) : List ParetoValue :=
  if front.any (fun w => ParetoValue.dominates w v) then front
  else v :: front.filter (fun w => !(ParetoValue.dominates v w))

/-- Modelled from the spec: merging two fronts keeps only maximal elements,
caps `first` at `max_first` and `second` at `max_second`, and sorts by
`first` ascending (section 4.3). -/
def mergeFronts (maxF maxS : Nat) (a b : List ParetoValue) : List ParetoValue :=
  (((a ++ b).map (fun v => ⟨min maxF v.first, min maxS v.second⟩)).foldl insertValue
    []).mergeSort (fun x y => decide (x.first ≤ y.first))

/-- Modelled from the spec: the reusable Pareto-front builder (section 4.3),
a stack of fronts with the two clamps. -/
structure ParetoFrontBuilder where
  max_first : Nat
  max_second : Nat
  stack : List (List ParetoValue)
  deriving Repr

/-- Start a new empty front on top of the stack (`push_empty`). -/
def ParetoFrontBuilder.push_empty (b : ParetoFrontBuilder) : ParetoFrontBuilder :=
  { b with stack := [] :: b.stack }

/-- Push a clone of an external front (`push`). -/
def ParetoFrontBuilder.pushFront (b : ParetoFrontBuilder) (front : List ParetoValue) :
    ParetoFrontBuilder :=
  { b with stack := front :: b.stack }

/-- Apply the affine offset to every value of the top front (`map` with the
`+= action_progress, += action_quality` closure used in solver.rs). -/
def ParetoFrontBuilder.mapOffset (b : ParetoFrontBuilder) (dp dq : Nat) :
    ParetoFrontBuilder :=
  { b with stack :=
      match b.stack with
      | [] => []
      | t :: r => t.map (fun v => ⟨v.first + dp, v.second + dq⟩) :: r }

/-- Pop the top front and merge it into the next one (`merge`); with fewer
than two fronts the Rust code would panic, modelled as a no-op. -/
def ParetoFrontBuilder.merge (b : ParetoFrontBuilder) : ParetoFrontBuilder :=
  { b with stack :=
      match b.stack with
      | bf :: af :: rest => mergeFronts b.max_first b.max_second af bf :: rest
      | s => s }

/-- Copy out the top front (`peek`). -/
def ParetoFrontBuilder.peek (b : ParetoFrontBuilder) : Option (List ParetoValue) :=
  b.stack.head?

/-- Empty the stack (`clear`). -/
def ParetoFrontBuilder.clear (b : ParetoFrontBuilder) : ParetoFrontBuilder :=
  { b with stack := [] }

/-- The early-termination test (`is_max`): the top front is the singleton
`(max_first, max_second)`. -/
def ParetoFrontBuilder.is_max (b : ParetoFrontBuilder) : Bool :=
  match b.stack.head? with
  | some f => decide (f = [{ first := b.max_first, second := b.max_second }])
  | none => false

/-- The solver record from solver.rs. The manipulation CP cost and the
search-action list are modelled from the spec (the action tables and the
`SEARCH_ACTIONS` mask live outside these sources), and `step` is the missing
simulator's one-step transition
`SimulationState::from(state).use_action(action, Condition::Normal, settings)`. -/
structure QualityUpperBoundSolver where
  settings : Settings
  manipulation_cp_cost : Int
  base_durability_cost : Int
  waste_not_cost : Int
  search_actions : List Action
  step : ReducedState → Action → Option SimulationState
  solved_states : List (ReducedState × List ParetoValue)
  pareto_front_builder : ParetoFrontBuilder

/-- Lookup in the memoisation table (`solved_states.get`). -/
def memoLookup : List (ReducedState × List ParetoValue) → ReducedState →
    Option (List ParetoValue)
  | [], _ => none
  | (k, v) :: rest, r => if r = k then some v else memoLookup rest r

/-- Install the builder's top front as the memo entry for `state`
(`solved_states.insert` after `peek`; the front stays on the stack). -/
def installTop (solver : QualityUpperBoundSolver) (state : ReducedState) :
    QualityUpperBoundSolver :=
  match solver.pareto_front_builder.peek with
  | some front => { solver with solved_states := (state, front) :: solver.solved_states }
  | none => solver

/-- The last push-and-merge of `build_child_front`: the singleton
`(action_progress, action_quality)` finisher option. -/
def finisherMerge (solver : QualityUpperBoundSolver) (ap aq : Nat) :
    QualityUpperBoundSolver :=
  let s := { solver with
    pareto_front_builder := solver.pareto_front_builder.pushFront [⟨ap, aq⟩] }
  { s with pareto_front_builder := s.pareto_front_builder.merge }

mutual

/-- Source embedding of `solve_state`: push an empty front, visit the allowed
search actions in enumeration order with early exit, then install the top
front as the memo entry. The fuel bounds the recursion depth (the Rust
recursion terminates because child cp decreases); at zero fuel the action
loop is skipped. -/
def solveState : Nat → QualityUpperBoundSolver → ReducedState → QualityUpperBoundSolver
  | 0, solver, state =>
    installTop
      { solver with pareto_front_builder := solver.pareto_front_builder.push_empty } state
  | fuel + 1, solver, state =>
    installTop
      (solveLoop fuel
        { solver with pareto_front_builder := solver.pareto_front_builder.push_empty }
        state (solver.search_actions.filter solver.settings.allowed_actions))
      state
termination_by fuel solver state => (fuel, 0)

/-- The action loop of `solve_state` with the `is_max` early exit. -/
def solveLoop (fuel : Nat) (solver : QualityUpperBoundSolver) (state : ReducedState) :
    List Action → QualityUpperBoundSolver
  | [] => solver
  | a :: rest =>
    let s2 := buildChildFront fuel solver state a
    if s2.pareto_front_builder.is_max then s2 else solveLoop fuel s2 state rest
termination_by actions => (fuel, 3 + actions.length)

/-- Source embedding of `build_child_front`. -/
def buildChildFront (fuel : Nat) (solver : QualityUpperBoundSolver)
    (state : ReducedState) (action : Action) : QualityUpperBoundSolver :=
  match solver.step state action with
  | none => solver
  | some new_state =>
    let action_progress := new_state.progress
    let action_quality := new_state.get_quality
    let reduced := ReducedState.from_state new_state
    let solver1 :=
      if 0 < reduced.cp then
        childSubtreeMerge fuel solver reduced action_progress action_quality
      else solver
    if 0 ≤ reduced.cp + solver.base_durability_cost ∧ action_progress ≠ 0 then
      finisherMerge solver1 action_progress action_quality
    else solver1
termination_by (fuel, 2)

/-- The recurse-or-reuse, offset and merge step of `build_child_front` for a
child whose reduced cp is positive. -/
def childSubtreeMerge (fuel : Nat) (solver : QualityUpperBoundSolver)
    (reduced : ReducedState) (ap aq : Nat) : QualityUpperBoundSolver :=
  let s2 :=
    match memoLookup solver.solved_states reduced with
    | some front =>
      { solver with pareto_front_builder := solver.pareto_front_builder.pushFront front }
    | none => solveState fuel solver reduced
  let s3 := { s2 with pareto_front_builder := s2.pareto_front_builder.mapOffset ap aq }
  { s3 with pareto_front_builder := s3.pareto_front_builder.merge }
termination_by (fuel, 1)

end

/-- Source embedding of the refund block at the start of `quality_upper_bound`
(solver.rs): credit cp for remaining manipulation, waste-not, durability and
an unused trained perfection, then set durability to `i8::MAX`. Rust `i16`
division truncates toward zero (`Int.tdiv`). -/
def refundEffectsAndDurability (solver : QualityUpperBoundSolver)
    (state : SimulationState) : SimulationState :=
  let state := { state with
    cp := state.cp + (state.effects.manipulation : Int) * (solver.manipulation_cp_cost.tdiv 8) }
  let state := { state with
    cp := state.cp + (state.effects.waste_not : Int) * solver.waste_not_cost }
  let state := { state with
    cp := state.cp + (state.durability.tdiv 5) * solver.base_durability_cost }
  let state :=
    if state.effects.trained_perfection ≠ SingleUse.unavailable ∧
        solver.settings.allowed_actions Action.trainedPerfection = true then
      { state with
        effects := state.effects.set_trained_perfection SingleUse.unavailable,
        cp := state.cp + 4 * solver.base_durability_cost }
    else state
  { state with durability := 127 }

/-- The reduced state that `quality_upper_bound` memoises: refund block
followed by the key projection. -/
def qubReducedState (solver : QualityUpperBoundSolver) (state : SimulationState) :
    ReducedState :=
  ReducedState.from_state (refundEffectsAndDurability solver state)

/-- Drop the whole builder stack after a top-level solve
(`pareto_front_builder.clear()`). -/
def clearBuilder (solver : QualityUpperBoundSolver) : QualityUpperBoundSolver :=
  { solver with pareto_front_builder := solver.pareto_front_builder.clear }

/-- The memoisation step of `quality_upper_bound`: solve the reduced state if
it is not memoised yet, then clear the builder. -/
def qubEnsureSolved (fuel : Nat) (solver : QualityUpperBoundSolver)
    (state : SimulationState) : QualityUpperBoundSolver :=
  match memoLookup solver.solved_states (qubReducedState solver state) with
  | some _ => solver
  | none => clearBuilder (solveState fuel solver (qubReducedState solver state))

/-- The loop of Rust's `slice::binary_search_by_key` on the `first`
components, searching for `target` in `l[left..right]`; the fuel bounds the
iteration count (the interval shrinks every round, so `l.length + 1` rounds
always suffice). The found index is returned for both the `Ok` and the `Err`
outcome, as the caller in solver.rs uses them identically. -/
def binarySearchGo (l : List ParetoValue) (target : Nat) :
    Nat → Nat → Nat → Nat
  | 0, left, _ => left
  | fuel + 1, left, right =>
    if left < right then
      if (l.getD (left + (right - left) / 2) ⟨0, 0⟩).first < target then
        binarySearchGo l target fuel (left + (right - left) / 2 + 1) right
      else if target < (l.getD (left + (right - left) / 2) ⟨0, 0⟩).first then
        binarySearchGo l target fuel left (left + (right - left) / 2)
      else left + (right - left) / 2
    else left

/-- Rust's `binary_search_by_key` over the whole front, collapsing `Ok` and
`Err` to the index as the caller does. -/
def binarySearchIdx (l : List ParetoValue) (target : Nat) : Nat :=
  binarySearchGo l target (l.length + 1) 0 l.length

/-- Source embedding of `quality_upper_bound` (solver.rs): compute the missing
progress, reduce, solve if not memoised, then look up the memoised front; the
`match` on the missing memo entry models the `unwrap` (unreachable because
`solve_state` always installs an entry). -/
def quality_upper_bound (fuel : Nat) (solver : QualityUpperBoundSolver)
    (state : SimulationState) : Nat :=
  let current_quality := state.get_quality
  let missing_progress := solver.settings.max_progress - state.progress
  let reduced := qubReducedState solver state
  let solver2 := qubEnsureSolved fuel solver state
  match memoLookup solver2.solved_states reduced with
  | none => 0
  | some front =>
    match front.getLast? with
    | none => 0
    | some element =>
      if element.first < missing_progress then 0
      else
        let index := binarySearchIdx front missing_progress
        min (satMul16 solver.settings.max_quality 2)
          (satAdd16 (front.getD index ⟨0, 0⟩).second current_quality)

/-- Claim C3: the state reduction performed before memoisation credits, in
order, `cp += manipulation_counter * (Manipulation.cp_cost / 8)`, then
`cp += waste_not_counter * waste_not_cost`, then
`cp += (durability / 5) * base_durability_cost`; if trained perfection is not
Unavailable and TrainedPerfection is allowed it credits
`cp += 4 * base_durability_cost` and sets the token to Unavailable; finally
durability is set to `i8::MAX`; all other fields are unchanged. -/
theorem claim_C3 (solver : QualityUpperBoundSolver) (state : SimulationState) :
    (refundEffectsAndDurability solver state).cp =
      state.cp + (state.effects.manipulation : Int) * (solver.manipulation_cp_cost.tdiv 8)
        + (state.effects.waste_not : Int) * solver.waste_not_cost
        + (state.durability.tdiv 5) * solver.base_durability_cost
        + (if state.effects.trained_perfection ≠ SingleUse.unavailable ∧
              solver.settings.allowed_actions Action.trainedPerfection = true
           then 4 * solver.base_durability_cost else 0) ∧
    (refundEffectsAndDurability solver state).durability = 127 ∧
    (refundEffectsAndDurability solver state).effects =
      (if state.effects.trained_perfection ≠ SingleUse.unavailable ∧
          solver.settings.allowed_actions Action.trainedPerfection = true
       then state.effects.set_trained_perfection SingleUse.unavailable
       else state.effects) ∧
    (refundEffectsAndDurability solver state).progress = state.progress ∧
    (refundEffectsAndDurability solver state).unreliable_quality =
      state.unreliable_quality ∧
    (refundEffectsAndDurability solver state).combo = state.combo := by
  unfold refundEffectsAndDurability
  dsimp only
  by_cases h : state.effects.trained_perfection ≠ SingleUse.unavailable ∧
      solver.settings.allowed_actions Action.trainedPerfection = true
  · rw [if_pos h, if_pos h, if_pos h]
    exact ⟨by ring, rfl, rfl, rfl, rfl, rfl⟩
  · rw [if_neg h, if_neg h, if_neg h]
    exact ⟨by ring, rfl, rfl, rfl, rfl, rfl⟩

theorem pairwise_first_lt {l : List ParetoValue}
    (hs : List.Pairwise (fun a b => a.first < b.first) l) {i j : Nat} (hij : i < j)
    (hj : j < l.length) :
    (l.getD i ⟨0, 0⟩).first < (l.getD j ⟨0, 0⟩).first := by
  have hi : i < l.length := Nat.lt_trans hij hj
  rw [List.getD_eq_getElem _ _ hi, List.getD_eq_getElem _ _ hj]
  exact List.pairwise_iff_get.mp hs ⟨i, hi⟩ ⟨j, hj⟩ hij

theorem binarySearchGo_spec (l : List ParetoValue) (target : Nat)
    (hs : List.Pairwise (fun a b => a.first < b.first) l) :
    ∀ (fuel left right : Nat), right ≤ l.length → left ≤ right → right - left < fuel →
      (∀ i, i < left → (l.getD i ⟨0, 0⟩).first < target) →
      (∀ i, right ≤ i → i < l.length → target < (l.getD i ⟨0, 0⟩).first) →
      (∀ i, i < binarySearchGo l target fuel left right →
        (l.getD i ⟨0, 0⟩).first < target) ∧
      (∀ i, binarySearchGo l target fuel left right ≤ i → i < l.length →
        target ≤ (l.getD i ⟨0, 0⟩).first) ∧
      binarySearchGo l target fuel left right ≤ right := by
  intro fuel
  induction fuel with
  | zero =>
    intro left right _ _ hfuel _ _
    omega
  | succ fuel ih =>
    intro left right hr hlr hfuel hpre hpost
    by_cases hlt : left < right
    · have hmidlt : left + (right - left) / 2 < right := by omega
      have hmidlen : left + (right - left) / 2 < l.length := by omega
      rw [binarySearchGo, if_pos hlt]
      by_cases h1 : (l.getD (left + (right - left) / 2) ⟨0, 0⟩).first < target
      · rw [if_pos h1]
        refine ih (left + (right - left) / 2 + 1) right hr (by omega) (by omega) ?_ hpost
        intro i hi
        rcases Nat.lt_or_ge i (left + (right - left) / 2) with h2 | h2
        · rcases Nat.lt_or_ge i left with h3 | h3
          · exact hpre i h3
          · exact Nat.lt_trans (pairwise_first_lt hs h2 hmidlen) h1
        · have : i = left + (right - left) / 2 := by omega
          rw [this]
          exact h1
      · rw [if_neg h1]
        by_cases h2 : target < (l.getD (left + (right - left) / 2) ⟨0, 0⟩).first
        · rw [if_pos h2]
          have hres := ih left (left + (right - left) / 2) (by omega) (by omega) (by omega)
            hpre ?_
          · exact ⟨hres.1, hres.2.1, by omega⟩
          · intro i hi hilen
            rcases Nat.eq_or_lt_of_le hi with h3 | h3
            · rw [← h3]
              exact h2
            · exact Nat.lt_trans h2 (pairwise_first_lt hs h3 hilen)
        · rw [if_neg h2]
          have heq : (l.getD (left + (right - left) / 2) ⟨0, 0⟩).first = target := by omega
          refine ⟨?_, ?_, by omega⟩
          · intro i hi
            rcases Nat.lt_or_ge i left with h3 | h3
            · exact hpre i h3
            · rw [← heq]
              exact pairwise_first_lt hs hi hmidlen
          · intro i hi hilen
            rcases Nat.eq_or_lt_of_le hi with h3 | h3
            · rw [← h3, heq]
            · rw [← heq]
              exact Nat.le_of_lt (pairwise_first_lt hs h3 hilen)
    · rw [binarySearchGo, if_neg hlt]
      refine ⟨hpre, ?_, by omega⟩
      intro i hi hilen
      exact Nat.le_of_lt (hpost i (by omega) hilen)

theorem binarySearchIdx_spec (l : List ParetoValue) (target : Nat)
    (hs : List.Pairwise (fun a b => a.first < b.first) l) :
    (∀ i, i < binarySearchIdx l target → (l.getD i ⟨0, 0⟩).first < target) ∧
    (∀ i, binarySearchIdx l target ≤ i → i < l.length →
      target ≤ (l.getD i ⟨0, 0⟩).first) ∧
    binarySearchIdx l target ≤ l.length := by
  unfold binarySearchIdx
  exact binarySearchGo_spec l target hs (l.length + 1) 0 l.length (Nat.le_refl _)
    (Nat.zero_le _) (by omega) (fun i hi => absurd hi (Nat.not_lt_zero i))
    (fun i hi hilen => absurd hilen (by omega))

theorem find?_eq_getD {α : Type} (d : α) (p : α → Bool) :
    ∀ (l : List α) (r : Nat), r < l.length → (∀ i, i < r → p (l.getD i d) = false) →
      p (l.getD r d) = true → l.find? p = some (l.getD r d) := by
  intro l
  induction l with
  | nil =>
    intro r hr
    exact absurd hr (Nat.not_lt_zero r)
  | cons x xs ih =>
    intro r hr hpre hp
    cases r with
    | zero =>
      rw [List.find?_cons_of_pos _ (by simpa using hp)]
      simp
    | succ r2 =>
      have hx : p x = false := by simpa using hpre 0 (Nat.succ_pos _)
      rw [List.find?_cons_of_neg _ (by simp [hx])]
      exact ih r2 (by simpa using hr) (fun i hi => by simpa using hpre (i + 1) (by omega))
        (by simpa using hp)

theorem mem_first_le_last {l : List ParetoValue}
    (hs : List.Pairwise (fun a b => a.first < b.first) l) {e x : ParetoValue}
    (hlast : l.getLast? = some e) (hx : x ∈ l) : x.first ≤ e.first := by
  obtain ⟨⟨i, hi⟩, rfl⟩ := List.mem_iff_get.mp hx
  have hne : l ≠ [] := by
    intro h
    rw [h] at hlast
    cases hlast
  have hlen : 0 < l.length := List.length_pos.mpr hne
  have he : e = l.getD (l.length - 1) ⟨0, 0⟩ := by
    rw [List.getLast?_eq_getElem?] at hlast
    rw [List.getD_eq_getElem _ _ (by omega)]
    have := List.getElem?_eq_getElem (l := l) (n := l.length - 1) (by omega)
    rw [this] at hlast
    injection hlast with h
    rw [h]
  rcases Nat.lt_or_ge i (l.length - 1) with h2 | h2
  · have := pairwise_first_lt hs h2 (by omega)
    rw [List.getD_eq_getElem _ _ hi] at this
    rw [he]
    exact Nat.le_of_lt (by simpa using this)
  · have : i = l.length - 1 := by omega
    subst this
    rw [he, List.getD_eq_getElem _ _ hi, List.get_eq_getElem]

theorem getLast?_eq_getD {α : Type} (d : α) {l : List α} {e : α}
    (h : l.getLast? = some e) : e = l.getD (l.length - 1) d := by
  have hne : l ≠ [] := by
    intro h2
    rw [h2] at h
    cases h
  have hlen : 0 < l.length := List.length_pos.mpr hne
  rw [List.getLast?_eq_getElem?] at h
  rw [List.getD_eq_getElem _ _ (by omega)]
  rw [List.getElem?_eq_getElem (l := l) (n := l.length - 1) (by omega)] at h
  injection h with h
  rw [h]

/-- Claim C2, amended: `quality_upper_bound` computes
`missing_progress = max_progress - progress` (saturating), reduces the state,
solves the reduced state exactly when it is not memoised, and then returns 0
when no entry of the memoised (ascending-sorted) front reaches
`missing_progress`, and otherwise returns
`min(2 * max_quality, entry.second + current_quality)` for the smallest entry
with `first ≥ missing_progress` — with both the doubling and the addition
performed in saturating `u16` arithmetic (cap 65535), which coincides with
the claimed exact formula whenever `max_quality ≤ 32767` and the sum stays
below 65536. -/
theorem claim_C2_amended :
    (∀ (fuel : Nat) (solver : QualityUpperBoundSolver) (state : SimulationState),
      (memoLookup solver.solved_states (qubReducedState solver state)).isSome = true →
        qubEnsureSolved fuel solver state = solver) ∧
    (∀ (fuel : Nat) (solver : QualityUpperBoundSolver) (state : SimulationState),
      memoLookup solver.solved_states (qubReducedState solver state) = none →
        qubEnsureSolved fuel solver state =
          clearBuilder (solveState fuel solver (qubReducedState solver state))) ∧
    (∀ (fuel : Nat) (solver : QualityUpperBoundSolver) (state : SimulationState)
        (front : List ParetoValue),
      memoLookup (qubEnsureSolved fuel solver state).solved_states
          (qubReducedState solver state) = some front →
      List.Pairwise (fun a b => a.first < b.first) front →
      quality_upper_bound fuel solver state =
        match front.find?
            (fun v => decide (solver.settings.max_progress - state.progress ≤ v.first)) with
        | none => 0
        | some e =>
          min (satMul16 solver.settings.max_quality 2)
            (satAdd16 e.second state.get_quality)) := by
  refine ⟨?_, ?_, ?_⟩
  · intro fuel solver state h
    unfold qubEnsureSolved
    match hm : memoLookup solver.solved_states (qubReducedState solver state) with
    | some f => rfl
    | none =>
      rw [hm] at h
      cases h
  · intro fuel solver state h
    unfold qubEnsureSolved
    rw [h]
  · intro fuel solver state front hfound hsorted
    unfold quality_upper_bound
    dsimp only
    rw [hfound]
    cases hlast : front.getLast? with
    | none =>
      have hnil : front = [] := List.getLast?_eq_none.mp hlast
      subst hnil
      rfl
    | some element =>
      simp only [hlast]
      by_cases hlt : element.first < solver.settings.max_progress - state.progress
      · rw [if_pos hlt]
        have hnone : front.find?
            (fun v => decide (solver.settings.max_progress - state.progress ≤ v.first)) =
            none := by
          apply List.find?_eq_none.mpr
          intro x hx
          have := mem_first_le_last hsorted hlast hx
          simp only [decide_eq_true_eq]
          omega
        rw [hnone]
      · rw [if_neg hlt]
        obtain ⟨hlo, hhi, hle⟩ := binarySearchIdx_spec front
          (solver.settings.max_progress - state.progress) hsorted
        have hfne : front ≠ [] := by
          intro h
          rw [h] at hlast
          cases hlast
        have hflen : 0 < front.length := List.length_pos.mpr hfne
        have he := getLast?_eq_getD (⟨0, 0⟩ : ParetoValue) hlast
        have hidxlt : binarySearchIdx front (solver.settings.max_progress - state.progress) <
            front.length := by
          by_contra h
          have hidx : binarySearchIdx front (solver.settings.max_progress - state.progress) =
              front.length := by omega
          have := hlo (front.length - 1) (by omega)
          rw [← he] at this
          omega
        have hchosen : front.find?
            (fun v => decide (solver.settings.max_progress - state.progress ≤ v.first)) =
            some (front.getD
              (binarySearchIdx front (solver.settings.max_progress - state.progress))
              ⟨0, 0⟩) := by
          apply find?_eq_getD _ _ _ _ hidxlt
          · intro i hi
            have := hlo i hi
            simp only [decide_eq_false_iff_not]
            omega
          · have := hhi _ (Nat.le_refl _) hidxlt
            simp only [decide_eq_true_eq]
            exact this
        rw [hchosen]

/-- Concrete effects record with no active buffs. -/
def cxEffects : Effects :=
  ⟨0, 0, 0, 0, 0, 0, 0, 0, SingleUse.unavailable, SingleUse.unavailable,
    SingleUse.unavailable⟩

/-- Concrete state for the counterexample of claim C2 as stated. -/
def cxState : SimulationState :=
  { cp := 10, durability := 35, progress := 0, unreliable_quality := (10000, 10000),
    effects := cxEffects, combo := Combo.noCombo }

/-- Concrete settings with `max_quality = 40000`, so that doubling the maximum
quality in `u16` saturates at 65535 instead of reaching 80000. -/
def cxSettings : Settings :=
  { max_cp := 1000, max_durability := 40, max_progress := 100, max_quality := 40000,
    base_progress := 100, base_quality := 100, job_level := 90,
    allowed_actions := fun _ => false, adversarial := false }

/-- The reduced state of `cxState` (no credits apply). -/
def cxReduced : ReducedState :=
  { cp := 10, effects := cxEffects, combo := Combo.noCombo }

/-- Concrete solver whose memo table already holds the front of `cxReduced`. -/
def cxSolver : QualityUpperBoundSolver :=
  { settings := cxSettings, manipulation_cp_cost := 0, base_durability_cost := 0,
    waste_not_cost := 0, search_actions := [], step := fun _ _ => none,
    solved_states := [(cxReduced, [⟨100, 60000⟩])],
    pareto_front_builder := ⟨100, 65535, []⟩ }

/-- Claim C2 as stated is false on the code: with `max_quality = 40000`, a
memoised front whose selected entry is `(100, 60000)` and current quality
10000, `quality_upper_bound` returns the `u16`-saturated 65535, while the
claimed formula `min(2 * max_quality, entry.second + current_quality)`
evaluates to 70000. -/
theorem claim_C2_counterexample :
    quality_upper_bound 0 cxSolver cxState = 65535 ∧
    memoLookup (qubEnsureSolved 0 cxSolver cxState).solved_states
        (qubReducedState cxSolver cxState) = some [⟨100, 60000⟩] ∧
    [(⟨100, 60000⟩ : ParetoValue)].find?
        (fun v => decide (cxSolver.settings.max_progress - cxState.progress ≤ v.first)) =
      some ⟨100, 60000⟩ ∧
    min (2 * cxSolver.settings.max_quality) ((60000 : Nat) + cxState.get_quality) = 70000 ∧
    (65535 : Nat) ≠ 70000 := by
  refine ⟨by decide, by decide, by decide, by decide, by decide⟩

/-- Concrete state with current quality 10 for the witness of the amended
claim C2. -/
def cwState : SimulationState :=
  { cxState with unreliable_quality := (10, 10) }

/-- Concrete small-number solver for the witness of the amended claim C2. -/
def cwSolver : QualityUpperBoundSolver :=
  { settings :=
      { max_cp := 1000, max_durability := 40, max_progress := 100, max_quality := 100,
        base_progress := 100, base_quality := 100, job_level := 90,
        allowed_actions := fun _ => false, adversarial := false },
    manipulation_cp_cost := 0, base_durability_cost := 0, waste_not_cost := 0,
    search_actions := [], step := fun _ _ => none,
    solved_states := [(cxReduced, [⟨100, 60⟩])],
    pareto_front_builder := ⟨100, 200, []⟩ }

theorem claim_C2_witness : quality_upper_bound 0 cwSolver cwState = 70 := by
  have h := claim_C2_amended.2.2 0 cwSolver cwState [⟨100, 60⟩] (by decide)
    (by simp)
  rw [h]
  decide

/-- Claim C4: in `solve_state`, for each action of
`SEARCH_ACTIONS ∩ allowed_actions` in enumeration order: a failing one-step
simulation leaves the builder untouched; on success the child subtree front
is pushed (recursively or from cache), offset and merged exactly when the
reduced child's cp is positive, and the singleton
`(action_progress, action_quality)` is pushed and merged exactly when
`child.cp + base_durability_cost ≥ 0` and `action_progress > 0`; the action
loop exits early as soon as the top front is maximal. -/
theorem claim_C4 :
    (∀ (fuel : Nat) (solver : QualityUpperBoundSolver) (state : ReducedState)
        (action : Action), solver.step state action = none →
      buildChildFront fuel solver state action = solver) ∧
    (∀ (fuel : Nat) (solver : QualityUpperBoundSolver) (state : ReducedState)
        (action : Action) (ns : SimulationState), solver.step state action = some ns →
      buildChildFront fuel solver state action =
        (if 0 ≤ (ReducedState.from_state ns).cp + solver.base_durability_cost ∧
            0 < ns.progress then
          finisherMerge
            (if 0 < (ReducedState.from_state ns).cp then
              childSubtreeMerge fuel solver (ReducedState.from_state ns) ns.progress
                ns.get_quality
            else solver) ns.progress ns.get_quality
        else
          (if 0 < (ReducedState.from_state ns).cp then
            childSubtreeMerge fuel solver (ReducedState.from_state ns) ns.progress
              ns.get_quality
          else solver))) ∧
    (∀ (fuel : Nat) (solver : QualityUpperBoundSolver) (state : ReducedState),
      solveLoop fuel solver state [] = solver) ∧
    (∀ (fuel : Nat) (solver : QualityUpperBoundSolver) (state : ReducedState)
        (a : Action) (rest : List Action),
      solveLoop fuel solver state (a :: rest) =
        (if (buildChildFront fuel solver state a).pareto_front_builder.is_max then
          buildChildFront fuel solver state a
        else solveLoop fuel (buildChildFront fuel solver state a) state rest)) ∧
    (∀ (fuel : Nat) (solver : QualityUpperBoundSolver) (state : ReducedState),
      solveState (fuel + 1) solver state =
        installTop
          (solveLoop fuel
            { solver with pareto_front_builder := solver.pareto_front_builder.push_empty }
            state (solver.search_actions.filter solver.settings.allowed_actions))
          state) := by
  refine ⟨?_, ?_, ?_, ?_, ?_⟩
  · intro fuel solver state action h
    unfold buildChildFront
    rw [h]
  · intro fuel solver state action ns h
    unfold buildChildFront
    rw [h]
    dsimp only
    by_cases h2 : 0 ≤ (ReducedState.from_state ns).cp + solver.base_durability_cost ∧
        ns.progress ≠ 0
    · rw [if_pos h2,
        if_pos (show 0 ≤ (ReducedState.from_state ns).cp + solver.base_durability_cost ∧
          0 < ns.progress from ⟨h2.1, Nat.pos_of_ne_zero h2.2⟩)]
    · rw [if_neg h2,
        if_neg (show ¬(0 ≤ (ReducedState.from_state ns).cp + solver.base_durability_cost ∧
            0 < ns.progress) from
          fun h3 => h2 ⟨h3.1, Nat.pos_iff_ne_zero.mp h3.2⟩)]
  · intro fuel solver state
    rw [solveLoop]
  · intro fuel solver state a rest
    rw [solveLoop]
  · intro fuel solver state
    rw [solveState]

theorem claim_C4_witness :
    buildChildFront 0 cxSolver cxReduced Action.basicTouch = cxSolver :=
  claim_C4.1 0 cxSolver cxReduced Action.basicTouch rfl

end QubSolver

end Raphael
